import Mathlib

/-!
Verification model of the OpenCL homography estimation core
(`src/backend/opencl/kernel/homography.hpp`, function `computeH`).

The host file under verification orchestrates five OpenCL kernels
(compute_homography, eval_homography, compute_median, find_min_median,
compute_lmeds_inliers) plus the external primitives `sort0`,
`reduce<af_add_t>` and `ireduce<af_max_t>`.  The host control flow
(buffer shapes, launch order, the selection reads, the single
`enqueueCopyBuffer` into `bestH`) is embedded from the source.  The
device kernels and the reduction/sort primitives are not part of the
source tree, so their per-element behaviour is modelled from the spec;
each such definition carries a doc comment saying so.

Scalars are modelled as exact rationals; `float`/`double` rounding is
outside the model.  Division by a zero denominator yields 0 (the Lean
convention); the spec tolerates degenerate candidates through robust
selection, so this does not affect the claims proved here.
-/

namespace Homography

/-- One correspondence: source point (sx, sy) matched to destination
point (dx, dy).  The source keeps these in four separate coordinate
buffers x_src, y_src, x_dst, y_dst; they are fused here. -/
structure Corr where
  sx : ℚ
  sy : ℚ
  dx : ℚ
  dy : ℚ
deriving DecidableEq, Repr

/-- The estimator kind template parameter af_homography_type. -/
inductive HType where
  | ransac
  | lmeds
deriving DecidableEq, Repr

/-- One entry per enqueued kernel / primitive, in host order:
ch = compute_homography, eh = eval_homography, sortE = sort0 on err,
cm = compute_median, fm = find_min_median, ired = ireduce max,
copy = enqueueCopyBuffer into bestH, cl = compute_lmeds_inliers,
addRed = reduce af_add. -/
inductive Launch where
  | ch
  | eh
  | sortE
  | cm
  | fm
  | ired
  | copy
  | cl
  | addRed
deriving DecidableEq, Repr

/-- Modelled from the spec: the reprojection error of kernel
eval_homography (not under src/).  Transform the source point by the
candidate homography and take the squared distance to the destination
point (the spec allows distance or squared distance). -/
def residual (h : List ℚ) (c : Corr) : ℚ :=
  let a : ℕ → ℚ := fun k => h.getD k 0
  let z := a 6 * c.sx + a 7 * c.sy + a 8
  let px := (a 0 * c.sx + a 1 * c.sy + a 2) / z
  let py := (a 3 * c.sx + a 4 * c.sy + a 5) / z
  (px - c.dx) ^ 2 + (py - c.dy) ^ 2

/-- Modelled from the spec: the final normalization step of kernel
compute_homography (not under src/): divide the nine solved
coefficients by the 9th one, unless that coefficient is exactly zero
(singular), in which case the row is left unnormalized.  The SVD solve
itself is abstract: its raw output is an input of the model. -/
def normalize9 (r : List ℚ) : List ℚ :=
  if r.getD 8 0 = 0 then
    [r.getD 0 0, r.getD 1 0, r.getD 2 0, r.getD 3 0, r.getD 4 0, r.getD 5 0,
     r.getD 6 0, r.getD 7 0, r.getD 8 0]
  else
    [r.getD 0 0 / r.getD 8 0, r.getD 1 0 / r.getD 8 0, r.getD 2 0 / r.getD 8 0,
     r.getD 3 0 / r.getD 8 0, r.getD 4 0 / r.getD 8 0, r.getD 5 0 / r.getD 8 0,
     r.getD 6 0 / r.getD 8 0, r.getD 7 0 / r.getD 8 0, r.getD 8 0 / r.getD 8 0]

/-- The 9 scalars starting at flat offset i * 9 of a flat stride-9
candidate buffer: the source copies bestH with
enqueueCopyBuffer(H, bestH, idx*9*sizeof(T), 0, 9*sizeof(T)). -/
def rowAt (hf : List ℚ) (i : ℕ) : List ℚ :=
  (hf.drop (i * 9)).take 9

/-- Threads per block (HG_THREADS in the source). -/
def HG_THREADS : ℕ := 256

/-- divup from the source: ceiling division. -/
def divup (a b : ℕ) : ℕ := (a + b - 1) / b

/-- Contiguous chunks of size c + 1, with explicit structural fuel so
that the definition reduces in the kernel.  With fuel at least the
list length the fuel never runs out. -/
def chunksFuel (c : ℕ) : ℕ → List α → List (List α)
  | _, [] => []
  | 0, l => [l]
  | fuel + 1, x :: t => ((x :: t).take (c + 1)) :: chunksFuel c fuel ((x :: t).drop (c + 1))

/-- The partition of a buffer into the contiguous per-block segments of
HG_THREADS = 256 elements used by the one-dimensional kernel grids. -/
def chunks256 (l : List α) : List (List α) :=
  chunksFuel 255 l.length l

/-- Modelled from the spec: one comparison step of a first-seen
extremal scan.  keep a b = true means a challenger of value b strictly
beats an incumbent of value a, so equal values never overwrite
(deterministic first-index tie-break of the spec). -/
def selCombine (keep : β → β → Bool) (p q : ℕ × β) : ℕ × β :=
  if keep p.2 q.2 then q else p

/-- Tail of the first-seen extremal scan: i is the global index of the
head of the remaining list, p the incumbent (index, value). -/
def selAux (keep : β → β → Bool) : List β → ℕ → ℕ × β → ℕ × β
  | [], _, p => p
  | v :: t, i, p => selAux keep t (i + 1) (selCombine keep p (i, v))

/-- Modelled from the spec: first-seen extremal selection over a value
buffer, returning (index, value); d is returned for an empty buffer. -/
def selFirst (keep : β → β → Bool) (d : β) : List β → ℕ × β
  | [] => (0, d)
  | v :: t => selAux keep t 1 (0, v)

/-- Add a block's base offset to a locally computed (index, value). -/
def shiftIdx (k : ℕ) (p : ℕ × β) : ℕ × β := (k + p.1, p.2)

/-- Modelled from the spec: the per-block extremal scan of the device
kernels (not under src/): each block reports its first-seen extremum
value and that extremum's global index into the per-block value and
index buffers. -/
def blockBests (keep : β → β → Bool) (d : β) : ℕ → List (List β) → List (ℕ × β)
  | _, [] => []
  | off, b :: bs => shiftIdx off (selFirst keep d b) :: blockBests keep d (off + b.length) bs

/-- The host-side final selection: reduce the per-block value buffer
with a deterministic first-index extremal reduction (the contract of
ireduce and of find_min_median, both outside src/ and modelled from
the spec), then look the winner's global index up in the per-block
index buffer — exactly the reads the host performs. -/
def selectBest (keep : β → β → Bool) (d : β) (pairs : List (ℕ × β)) : ℕ × β :=
  ((pairs.map Prod.fst).getD (selFirst keep d (pairs.map Prod.snd)).1 0,
   (selFirst keep d (pairs.map Prod.snd)).2)

/-- Two-level selection over per-256-iteration block extrema, in the
shape the host buffers impose. -/
def twoLevel (keep : β → β → Bool) (d : β) (l : List β) : ℕ × β :=
  selectBest keep d (blockBests keep d 0 (chunks256 l))

/-- The RANSAC comparison: a larger inlier count strictly beats. -/
def keepMax (a b : ℕ) : Bool := decide (a < b)

/-- The LMedS comparison: a smaller median strictly beats. -/
def keepMin (a b : ℚ) : Bool := decide (b < a)

section SelectionLemmas

variable {β : Type} {keep : β → β → Bool}

theorem selCombine_assoc
    (Ht : ∀ a b c : β, keep a b = true → keep b c = true → keep a c = true)
    (Hn : ∀ a b c : β, keep a b = false → keep b c = false → keep a c = false)
    (p q r : ℕ × β) :
    selCombine keep (selCombine keep p q) r = selCombine keep p (selCombine keep q r) := by
  rcases h1 : keep p.2 q.2 <;> rcases h2 : keep q.2 r.2
  · have h3 := Hn _ _ _ h1 h2
    simp [selCombine, h1, h2, h3]
  · simp [selCombine, h1, h2]
  · simp [selCombine, h1, h2]
  · have h3 := Ht _ _ _ h1 h2
    simp [selCombine, h1, h2, h3]

theorem shiftIdx_selCombine (k : ℕ) (p q : ℕ × β) :
    selCombine keep (shiftIdx k p) (shiftIdx k q) = shiftIdx k (selCombine keep p q) := by
  unfold selCombine shiftIdx
  rcases h : keep p.2 q.2 <;> simp [h]

theorem shiftIdx_shiftIdx (k m : ℕ) (p : ℕ × β) :
    shiftIdx k (shiftIdx m p) = shiftIdx (k + m) p := by
  simp [shiftIdx, Nat.add_assoc]

theorem selAux_append (t₁ t₂ : List β) (i : ℕ) (p : ℕ × β) :
    selAux keep (t₁ ++ t₂) i p = selAux keep t₂ (i + t₁.length) (selAux keep t₁ i p) := by
  induction t₁ generalizing i p with
  | nil => simp [selAux]
  | cons v t ih =>
      show selAux keep (t ++ t₂) (i + 1) (selCombine keep p (i, v))
          = selAux keep t₂ (i + (t.length + 1)) (selAux keep t (i + 1) (selCombine keep p (i, v)))
      rw [ih]
      congr 1
      omega

theorem selAux_char
    (Ht : ∀ a b c : β, keep a b = true → keep b c = true → keep a c = true)
    (Hn : ∀ a b c : β, keep a b = false → keep b c = false → keep a c = false)
    (d : β) (t : List β) (i : ℕ) (p : ℕ × β) (hne : t ≠ []) :
    selAux keep t i p = selCombine keep p (shiftIdx i (selFirst keep d t)) := by
  induction t generalizing i p with
  | nil => exact absurd rfl hne
  | cons v t ih =>
      rcases ht : t with _ | ⟨w, t₂⟩
      · simp [selAux, selFirst, shiftIdx, selCombine]
      · rw [← ht]
        have htne : t ≠ [] := by simp [ht]
        show selAux keep t (i + 1) (selCombine keep p (i, v)) = _
        rw [ih _ _ htne]
        have hsel : selFirst keep d (v :: t) = selCombine keep (0, v) (shiftIdx 1 (selFirst keep d t)) := by
          show selAux keep t 1 (0, v) = _
          rw [ih _ _ htne]
        rw [hsel, selCombine_assoc Ht Hn]
        have h1 : shiftIdx i ((0 : ℕ), v) = ((i : ℕ), v) := by simp [shiftIdx]
        rw [← shiftIdx_selCombine, shiftIdx_shiftIdx, h1]

theorem selFirst_cons_char
    (Ht : ∀ a b c : β, keep a b = true → keep b c = true → keep a c = true)
    (Hn : ∀ a b c : β, keep a b = false → keep b c = false → keep a c = false)
    (d : β) (v : β) (t : List β) (hne : t ≠ []) :
    selFirst keep d (v :: t) = selCombine keep (0, v) (shiftIdx 1 (selFirst keep d t)) := by
  show selAux keep t 1 (0, v) = _
  exact selAux_char Ht Hn d t 1 (0, v) hne

theorem selFirst_append
    (Ht : ∀ a b c : β, keep a b = true → keep b c = true → keep a c = true)
    (Hn : ∀ a b c : β, keep a b = false → keep b c = false → keep a c = false)
    (d : β) (l₁ l₂ : List β) (h₁ : l₁ ≠ []) (h₂ : l₂ ≠ []) :
    selFirst keep d (l₁ ++ l₂)
      = selCombine keep (selFirst keep d l₁) (shiftIdx l₁.length (selFirst keep d l₂)) := by
  rcases l₁ with _ | ⟨v, t₁⟩
  · exact absurd rfl h₁
  · show selAux keep (t₁ ++ l₂) 1 (0, v) = _
    rw [selAux_append, selAux_char Ht Hn d l₂ _ _ h₂]
    show selCombine keep (selAux keep t₁ 1 (0, v)) _ = _
    have : (1 : ℕ) + t₁.length = (v :: t₁).length := by simp [Nat.add_comm]
    rw [this]
    rfl

/-- Extensional characterization of a deterministic first-seen
extremal selection: the value sits at the returned index, no element
strictly beats it, and it strictly beats every earlier element (so on
ties the lowest index is kept). -/
def SelSpec (keep : β → β → Bool) (l : List β) (i : ℕ) (v : β) : Prop :=
  l.get? i = some v ∧
  (∀ j w, l.get? j = some w → keep v w = false) ∧
  (∀ j w, j < i → l.get? j = some w → keep w v = true)

theorem lt_length_of_get?_eq_some {l : List β} {n : ℕ} {a : β}
    (h : l.get? n = some a) : n < l.length := by
  by_contra hn
  rw [List.get?_eq_none.mpr (by omega)] at h
  exact Option.noConfusion h

theorem shiftIdx_fst (k : ℕ) (p : ℕ × β) : (shiftIdx k p).1 = k + p.1 := rfl

theorem shiftIdx_snd (k : ℕ) (p : ℕ × β) : (shiftIdx k p).2 = p.2 := rfl

theorem selCombine_true {p q : ℕ × β} (h : keep p.2 q.2 = true) :
    selCombine keep p q = q := by
  simp [selCombine, h]

theorem selCombine_false {p q : ℕ × β} (h : keep p.2 q.2 = false) :
    selCombine keep p q = p := by
  simp [selCombine, h]

theorem selFirst_spec
    (Ht : ∀ a b c : β, keep a b = true → keep b c = true → keep a c = true)
    (Hn : ∀ a b c : β, keep a b = false → keep b c = false → keep a c = false)
    (Hirr : ∀ a : β, keep a a = false)
    (d : β) (l : List β) :
    l ≠ [] → SelSpec keep l (selFirst keep d l).1 (selFirst keep d l).2 := by
  induction l with
  | nil => intro h; exact absurd rfl h
  | cons v t ih =>
      intro _
      by_cases htne : t = []
      · subst htne
        refine ⟨rfl, ?_, ?_⟩
        · intro j w hj
          rcases j with _ | j
          · rw [List.get?_cons_zero] at hj
            injection hj with hj
            subst hj
            exact Hirr _
          · rw [List.get?_cons_succ] at hj
            simp at hj
        · intro j w hlt _
          have h0 : (selFirst keep d [v]).1 = 0 := rfl
          rw [h0] at hlt
          exact absurd hlt (Nat.not_lt_zero j)
      · have hsp := ih htne
        rw [selFirst_cons_char Ht Hn d v t htne]
        set s := selFirst keep d t with hsdef
        rcases hkeep : keep v s.2
        · rw [selCombine_false (show keep ((0 : ℕ), v).2 (shiftIdx 1 s).2 = false from hkeep)]
          refine ⟨rfl, ?_, ?_⟩
          · intro j w hj
            rcases j with _ | j
            · rw [List.get?_cons_zero] at hj
              injection hj with hj
              subst hj
              exact Hirr _
            · rw [List.get?_cons_succ] at hj
              exact Hn _ _ _ hkeep (hsp.2.1 j w hj)
          · intro j w hlt _
            have h0 : (((0 : ℕ), v) : ℕ × β).1 = 0 := rfl
            rw [h0] at hlt
            exact absurd hlt (Nat.not_lt_zero j)
        · rw [selCombine_true (show keep ((0 : ℕ), v).2 (shiftIdx 1 s).2 = true from hkeep)]
          refine ⟨?_, ?_, ?_⟩
          · show (v :: t).get? (1 + s.1) = some s.2
            rw [Nat.add_comm, List.get?_cons_succ]
            exact hsp.1
          · intro j w hj
            rcases j with _ | j
            · rw [List.get?_cons_zero] at hj
              injection hj with hj
              subst hj
              show keep s.2 v = false
              rcases hvw : keep s.2 v
              · rfl
              · exact absurd (Ht _ _ _ hvw hkeep) (by rw [Hirr]; simp)
            · rw [List.get?_cons_succ] at hj
              exact hsp.2.1 j w hj
          · intro j w hlt hj
            rw [shiftIdx_fst] at hlt
            rcases j with _ | j
            · rw [List.get?_cons_zero] at hj
              injection hj with hj
              subst hj
              exact hkeep
            · rw [List.get?_cons_succ] at hj
              exact hsp.2.2 j w (by omega) hj

theorem selectBest_snd (d : β) (pairs : List (ℕ × β)) :
    (selectBest keep d pairs).2 = (selFirst keep d (pairs.map Prod.snd)).2 := rfl

theorem selectBest_cons
    (Ht : ∀ a b c : β, keep a b = true → keep b c = true → keep a c = true)
    (Hn : ∀ a b c : β, keep a b = false → keep b c = false → keep a c = false)
    (Hirr : ∀ a : β, keep a a = false)
    (d : β) (p : ℕ × β) (ps : List (ℕ × β)) (hne : ps ≠ []) :
    selectBest keep d (p :: ps) = selCombine keep p (selectBest keep d ps) := by
  have hmapne : ps.map Prod.snd ≠ [] := by
    simpa using hne
  show ((((p :: ps).map Prod.fst)).getD
      (selFirst keep d ((p :: ps).map Prod.snd)).1 0,
      (selFirst keep d ((p :: ps).map Prod.snd)).2) = _
  rw [List.map_cons, List.map_cons,
    selFirst_cons_char Ht Hn d _ _ hmapne]
  rcases hkeep : keep p.2 (selFirst keep d (ps.map Prod.snd)).2
  · rw [selCombine_false
        (show keep ((0 : ℕ), p.2).2 (shiftIdx 1 (selFirst keep d (ps.map Prod.snd))).2 = false
          from hkeep),
      selCombine_false
        (show keep p.2 (selectBest keep d ps).2 = false from hkeep)]
    show ((p.1 :: ps.map Prod.fst).getD 0 0, p.2) = p
    rw [List.getD_cons_zero]
  · rw [selCombine_true
        (show keep ((0 : ℕ), p.2).2 (shiftIdx 1 (selFirst keep d (ps.map Prod.snd))).2 = true
          from hkeep),
      selCombine_true
        (show keep p.2 (selectBest keep d ps).2 = true from hkeep)]
    show ((p.1 :: ps.map Prod.fst).getD (1 + (selFirst keep d (ps.map Prod.snd)).1) 0,
        (selFirst keep d (ps.map Prod.snd)).2) = selectBest keep d ps
    rw [Nat.add_comm 1 (selFirst keep d (ps.map Prod.snd)).1, List.getD_cons_succ]
    rfl

theorem selectBest_shift
    (Ht : ∀ a b c : β, keep a b = true → keep b c = true → keep a c = true)
    (Hn : ∀ a b c : β, keep a b = false → keep b c = false → keep a c = false)
    (Hirr : ∀ a : β, keep a a = false)
    (d : β) (k : ℕ) (pairs : List (ℕ × β)) (hne : pairs ≠ []) :
    selectBest keep d (pairs.map (shiftIdx k)) = shiftIdx k (selectBest keep d pairs) := by
  have hsnd : (pairs.map (shiftIdx k)).map Prod.snd = pairs.map Prod.snd := by
    rw [List.map_map]
    rfl
  have hfst : (pairs.map (shiftIdx k)).map Prod.fst
      = pairs.map (fun p => k + p.1) := by
    rw [List.map_map]
    rfl
  have hmapne : pairs.map Prod.snd ≠ [] := by simpa using hne
  have hsp := selFirst_spec Ht Hn Hirr d (pairs.map Prod.snd) hmapne
  have hidx : (selFirst keep d (pairs.map Prod.snd)).1 < pairs.length := by
    have := lt_length_of_get?_eq_some hsp.1
    simpa using this
  have hlen1 : (selFirst keep d (pairs.map Prod.snd)).1
      < (pairs.map (fun p => k + p.1)).length := by simpa using hidx
  have hlen2 : (selFirst keep d (pairs.map Prod.snd)).1
      < (pairs.map Prod.fst).length := by simpa using hidx
  have hgetd : (pairs.map (fun p => k + p.1)).getD (selFirst keep d (pairs.map Prod.snd)).1 0
      = k + (pairs.map Prod.fst).getD (selFirst keep d (pairs.map Prod.snd)).1 0 := by
    rw [List.getD_eq_getElem _ _ hlen1, List.getD_eq_getElem _ _ hlen2,
      List.getElem_map, List.getElem_map]
  show (((pairs.map (shiftIdx k)).map Prod.fst).getD
      (selFirst keep d ((pairs.map (shiftIdx k)).map Prod.snd)).1 0,
      (selFirst keep d ((pairs.map (shiftIdx k)).map Prod.snd)).2)
    = (k + (pairs.map Prod.fst).getD (selFirst keep d (pairs.map Prod.snd)).1 0,
      (selFirst keep d (pairs.map Prod.snd)).2)
  rw [hsnd, hfst, hgetd]

theorem blockBests_shift (d : β) (bs : List (List β)) (off : ℕ) :
    blockBests keep d off bs = (blockBests keep d 0 bs).map (shiftIdx off) := by
  induction bs generalizing off with
  | nil => rfl
  | cons b bs ih =>
      show shiftIdx off (selFirst keep d b) :: blockBests keep d (off + b.length) bs
          = (shiftIdx 0 (selFirst keep d b) :: blockBests keep d (0 + b.length) bs).map
              (shiftIdx off)
      rw [List.map_cons, ih (off + b.length), ih (0 + b.length), List.map_map]
      congr 1
      · simp [shiftIdx_shiftIdx]
      · have hco : shiftIdx off ∘ shiftIdx (0 + b.length)
            = (shiftIdx (off + b.length) : ℕ × β → ℕ × β) := by
          funext p
          show shiftIdx off (shiftIdx (0 + b.length) p) = _
          rw [shiftIdx_shiftIdx]
          congr 1
          omega
        rw [hco]

theorem blockBests_ne_nil (d : β) (off : ℕ) (bs : List (List β)) (h : bs ≠ []) :
    blockBests keep d off bs ≠ [] := by
  rcases bs with _ | ⟨b, bs⟩
  · exact absurd rfl h
  · simp [blockBests]

theorem flatten_ne_nil_of_head (bs : List (List β)) (h : bs ≠ [])
    (hb : ∀ b ∈ bs, b ≠ []) : bs.flatten ≠ [] := by
  rcases bs with _ | ⟨b, bs⟩
  · exact absurd rfl h
  · have hbne : b ≠ [] := hb b (by simp)
    rcases b with _ | ⟨x, b⟩
    · exact absurd rfl hbne
    · simp

theorem blockSel_eq
    (Ht : ∀ a b c : β, keep a b = true → keep b c = true → keep a c = true)
    (Hn : ∀ a b c : β, keep a b = false → keep b c = false → keep a c = false)
    (Hirr : ∀ a : β, keep a a = false)
    (d : β) (bs : List (List β)) :
    bs ≠ [] → (∀ b ∈ bs, b ≠ []) →
    selectBest keep d (blockBests keep d 0 bs) = selFirst keep d bs.flatten := by
  induction bs with
  | nil => intro h _; exact absurd rfl h
  | cons b bs ih =>
      intro _ hb
      have hbne : b ≠ [] := hb b (by simp)
      by_cases hbs : bs = []
      · subst hbs
        have h1 : selectBest keep d [shiftIdx 0 (selFirst keep d b)]
            = shiftIdx 0 (selFirst keep d b) := rfl
        show selectBest keep d [shiftIdx 0 (selFirst keep d b)]
            = selFirst keep d [b].flatten
        rw [h1]
        have h2 : ([b] : List (List β)).flatten = b := by simp
        rw [h2]
        unfold shiftIdx
        simp
      · have hbbs : ∀ x ∈ bs, x ≠ [] := fun x hx => hb x (by simp [hx])
        have hfne : bs.flatten ≠ [] := flatten_ne_nil_of_head bs hbs hbbs
        show selectBest keep d
            (shiftIdx 0 (selFirst keep d b) :: blockBests keep d (0 + b.length) bs)
            = selFirst keep d ((b :: bs).flatten)
        have hz : shiftIdx 0 (selFirst keep d b) = selFirst keep d b := by
          unfold shiftIdx
          simp
        rw [hz, blockBests_shift d bs (0 + b.length)]
        have hbbne : blockBests keep d 0 bs ≠ [] := blockBests_ne_nil d 0 bs hbs
        have hmapne2 : (blockBests keep d 0 bs).map (shiftIdx (0 + b.length)) ≠ [] := by
          simpa using hbbne
        rw [selectBest_cons Ht Hn Hirr d _ _ hmapne2,
          selectBest_shift Ht Hn Hirr d _ _ hbbne, ih hbs hbbs]
        have hflat : (b :: bs).flatten = b ++ bs.flatten := by simp
        rw [hflat, selFirst_append Ht Hn d b bs.flatten hbne hfne]
        congr 2
        omega

end SelectionLemmas

section ChunkLemmas

variable {α : Type}

theorem chunksFuel_flatten (c : ℕ) :
    ∀ (fuel : ℕ) (l : List α), l.length ≤ fuel → (chunksFuel c fuel l).flatten = l := by
  intro fuel
  induction fuel with
  | zero =>
      intro l hl
      rcases l with _ | ⟨x, t⟩
      · rfl
      · simp at hl
  | succ fuel ih =>
      intro l hl
      rcases l with _ | ⟨x, t⟩
      · rfl
      · show ((x :: t).take (c + 1) ++ (chunksFuel c fuel ((x :: t).drop (c + 1))).flatten)
            = x :: t
        rw [ih _ (by
          rw [List.length_drop]
          simp only [List.length_cons] at hl ⊢
          omega)]
        exact List.take_append_drop (c + 1) (x :: t)

theorem chunksFuel_mem_ne_nil (c : ℕ) :
    ∀ (fuel : ℕ) (l : List α) (b : List α), b ∈ chunksFuel c fuel l → b ≠ [] := by
  intro fuel
  induction fuel with
  | zero =>
      intro l b hb
      rcases l with _ | ⟨x, t⟩
      · simp [chunksFuel] at hb
      · have hbeq : b = x :: t := by simpa [chunksFuel] using hb
        subst hbeq
        simp
  | succ fuel ih =>
      intro l b hb
      rcases l with _ | ⟨x, t⟩
      · simp [chunksFuel] at hb
      · rcases List.mem_cons.mp hb with h | h
        · subst h
          simp
        · exact ih _ b h

theorem chunksFuel_ne_nil (c fuel : ℕ) (l : List α) (h : l ≠ []) :
    chunksFuel c fuel l ≠ [] := by
  rcases l with _ | ⟨x, t⟩
  · exact absurd rfl h
  · rcases fuel with _ | fuel <;> simp [chunksFuel]

theorem chunks256_flatten (l : List α) : (chunks256 l).flatten = l :=
  chunksFuel_flatten 255 l.length l le_rfl

theorem chunks256_mem_ne_nil (l : List α) :
    ∀ b ∈ chunks256 l, b ≠ [] :=
  fun b hb => chunksFuel_mem_ne_nil 255 l.length l b hb

theorem chunks256_ne_nil (l : List α) (h : l ≠ []) : chunks256 l ≠ [] :=
  chunksFuel_ne_nil 255 l.length l h

end ChunkLemmas

theorem keepMax_trans : ∀ a b c : ℕ, keepMax a b = true → keepMax b c = true → keepMax a c = true := by
  intro a b c h1 h2
  simp only [keepMax, decide_eq_true_eq] at *
  omega

theorem keepMax_ntrans : ∀ a b c : ℕ, keepMax a b = false → keepMax b c = false → keepMax a c = false := by
  intro a b c h1 h2
  simp only [keepMax, decide_eq_false_iff_not] at *
  omega

theorem keepMax_irr : ∀ a : ℕ, keepMax a a = false := by
  intro a
  simp [keepMax]

theorem keepMin_trans : ∀ a b c : ℚ, keepMin a b = true → keepMin b c = true → keepMin a c = true := by
  intro a b c h1 h2
  simp only [keepMin, decide_eq_true_eq] at *
  exact lt_trans h2 h1

theorem keepMin_ntrans : ∀ a b c : ℚ, keepMin a b = false → keepMin b c = false → keepMin a c = false := by
  intro a b c h1 h2
  simp only [keepMin, decide_eq_false_iff_not] at *
  exact not_lt.mpr (le_trans (not_lt.mp h1) (not_lt.mp h2))

theorem keepMin_irr : ∀ a : ℚ, keepMin a a = false := by
  intro a
  simp [keepMin]

theorem twoLevel_eq_selFirst {β : Type} {keep : β → β → Bool}
    (Ht : ∀ a b c : β, keep a b = true → keep b c = true → keep a c = true)
    (Hn : ∀ a b c : β, keep a b = false → keep b c = false → keep a c = false)
    (Hirr : ∀ a : β, keep a a = false)
    (d : β) (l : List β) (hne : l ≠ []) :
    twoLevel keep d l = selFirst keep d l := by
  unfold twoLevel
  rw [blockSel_eq Ht Hn Hirr d (chunks256 l) (chunks256_ne_nil l hne)
    (chunks256_mem_ne_nil l), chunks256_flatten]

/-- The inputs of computeH.  The coordinate buffers and rnd are
caller-owned read-only inputs; rnd holds the sampled correspondence
indices and is consumed only by the abstract SVD solve.  rawH is that
solve's abstract output (one row of 9 raw coefficients per iteration;
the solve of kernel compute_homography is outside src/ and modelled
from the spec only through the final normalization).  errInit and
bestH0 are the contents of the caller-supplied err scratch buffer and
bestH output buffer at entry.  The nsamples argument of the source
call equals the correspondence count: the eval and classify kernels
iterate over nsamples = N points, so it is cs.length here. -/
structure HInput where
  cs : List Corr
  rnd : List ℕ
  rawH : List (List ℚ)
  iterations : ℕ
  inlier_thr : ℚ
  errInit : List (List ℚ)
  bestH0 : List ℚ
deriving Repr

/-- The normalized candidate row kernel compute_homography writes for
iteration i. -/
def candRow (inp : HInput) (i : ℕ) : List ℚ :=
  normalize9 (inp.rawH.getD i [])

/-- The flat stride-9 candidate buffer H after compute_homography:
row i occupies offsets i*9 .. i*9+8. -/
def candBuf (inp : HInput) : List ℚ :=
  ((List.range inp.iterations).map (candRow inp)).flatten

/-- The device/host state threaded through the phases of computeH: the
scratch buffers of the source, the host-side scalar reads, the
contents of the caller's bestH buffer together with a count of the
writes to it, and the ordered launch log. -/
structure St where
  H : List ℚ
  err : List (List ℚ)
  inliersBuf : List ℕ
  idxBuf : List ℕ
  medBuf : List ℚ
  medIdxBuf : List ℕ
  winIdx : ℕ
  minMedian : ℚ
  inliersH : ℕ
  bestH : List ℚ
  bestHWrites : ℕ
  launches : List Launch
deriving DecidableEq, Repr

/-- The state at entry of computeH. -/
def initSt (inp : HInput) : St :=
  { H := [], err := inp.errInit, inliersBuf := [], idxBuf := [], medBuf := [],
    medIdxBuf := [], winIdx := 0, minMedian := 0, inliersH := 0,
    bestH := inp.bestH0, bestHWrites := 0, launches := [] }

/-- A schedule: the orders in which the schedule-sensitive parallel
reductions combine their elements.  evalOrd i is the order in which
iteration i's eval thread accumulates its inlier count; clParts is the
decomposition of the correspondence set into the per-block partial
counts of compute_lmeds_inliers; sortOrd i is the order in which
residual row i reaches the parallel sort. -/
structure Sched where
  evalOrd : ℕ → List Corr → List Corr
  clParts : List Corr → List (List Corr)
  sortOrd : ℕ → List ℚ → List ℚ

/-- A schedule is valid when it only reorders: every interleaving the
parallel substrate can produce is a permutation of the work items. -/
def Sched.Valid (s : Sched) : Prop :=
  (∀ (i : ℕ) (l : List Corr), (s.evalOrd i l).Perm l) ∧
  (∀ l : List Corr, (s.clParts l).flatten.Perm l) ∧
  (∀ (i : ℕ) (r : List ℚ), (s.sortOrd i r).Perm r)

/-- The canonical in-order schedule. -/
def canonSched : Sched :=
  { evalOrd := fun _ l => l, clParts := fun l => chunks256 l,
    sortOrd := fun _ r => r }

/-- Phase 1 (both modes): kernel compute_homography fills the flat H
buffer with the normalized candidate rows, one per iteration. -/
def stepCH (inp : HInput) (st : St) : St :=
  { st with
    H := candBuf inp
    launches := st.launches ++ [Launch.ch] }

/-- An eval_homography thread's inlier count for one candidate row
over a correspondence list: the number of correspondences whose
reprojection error is at most inlier_thr (modelled from the spec; the
kernel is not under src/). -/
def iterCountIn (thr : ℚ) (hrow : List ℚ) (l : List Corr) : ℕ :=
  l.countP (fun c => decide (residual hrow c ≤ thr))

/-- Phase 2, RANSAC: eval_homography computes every iteration's inlier
count over the whole correspondence set and each 256-iteration block
writes its first-seen maximum count and that maximum's global
iteration index into the inliers/idx buffers (modelled from the
spec). -/
def ehPairs (s : Sched) (inp : HInput) (hbuf : List ℚ) : List (ℕ × ℕ) :=
  blockBests keepMax 0 0 (chunks256 ((List.range inp.iterations).map
    (fun i => iterCountIn inp.inlier_thr (rowAt hbuf i) (s.evalOrd i inp.cs))))

def stepEHr (s : Sched) (inp : HInput) (st : St) : St :=
  { st with
    inliersBuf := (ehPairs s inp st.H).map Prod.snd
    idxBuf := (ehPairs s inp st.H).map Prod.fst
    launches := st.launches ++ [Launch.eh] }

/-- Phase 3, RANSAC: the host runs ireduce<af_max_t> over the
per-block counts (first-index tie-break, the primitive's contract,
modelled from the spec), then reads the winning block's stored global
iteration index from idx and the best count. -/
def stepIR (st : St) : St :=
  { st with
    winIdx := st.idxBuf.getD (selFirst keepMax 0 st.inliersBuf).1 0
    inliersH := (selFirst keepMax 0 st.inliersBuf).2
    launches := st.launches ++ [Launch.ired] }

/-- The bestH write (both modes): enqueueCopyBuffer(H, bestH,
winIdx*9*sizeof(T), 0, 9*sizeof(T)). -/
def stepCopy (st : St) : St :=
  { st with
    bestH := rowAt st.H st.winIdx
    bestHWrites := st.bestHWrites + 1
    launches := st.launches ++ [Launch.copy] }

/-- Phase 2, LMedS: eval_homography stores every correspondence's
residual for every iteration into the err buffer, row i holding
iteration i's residuals in correspondence order (modelled from the
spec: each thread writes only its own slot). -/
def stepEHl (inp : HInput) (st : St) : St :=
  { st with
    err := (List.range inp.iterations).map
      (fun i => inp.cs.map (residual (rowAt st.H i)))
    launches := st.launches ++ [Launch.eh] }

/-- Phase 3, LMedS: kernel::sort0<float, true> sorts the err buffer in
place, ascending along dimension 0, i.e. each iteration's residual
row separately.  The sort primitive's contract fixes the sorted
result, so a schedule's reordering of the row cannot change it. -/
def stepSort (s : Sched) (st : St) : St :=
  { st with
    err := (List.range st.err.length).map
      (fun i => List.insertionSort (fun a b => a ≤ b) (s.sortOrd i (st.err.getD i [])))
    launches := st.launches ++ [Launch.sortE] }

/-- The median compute_median reads from a sorted residual row.
Modelled from the spec, which leaves the even-length convention open;
the lower-middle element (index (n-1)/2) is chosen. -/
def rowMedianOfSorted (r : List ℚ) : ℚ :=
  r.getD ((r.length - 1) / 2) 0

/-- Phase 4, LMedS: compute_median reads every iteration's median from
the sorted err buffer and each 256-iteration block writes its
first-seen minimum median and that minimum's global iteration index
into the median/idx buffers (modelled from the spec). -/
def cmPairs (errRows : List (List ℚ)) : List (ℕ × ℚ) :=
  blockBests keepMin 0 0 (chunks256 (errRows.map rowMedianOfSorted))

def stepCM (st : St) : St :=
  { st with
    medBuf := (cmPairs st.err).map Prod.snd
    medIdxBuf := (cmPairs st.err).map Prod.fst
    launches := st.launches ++ [Launch.cm] }

/-- Phase 5, LMedS: with more than one block the host launches
find_min_median to reduce the per-block medians (first-index
tie-break, modelled from the spec) and reads the resulting minimum
median and iteration index; with a single block it reads
median.data[0] and idx.data[0] directly, which are the same values
since a one-element reduction is the identity. -/
def stepFM (inp : HInput) (st : St) : St :=
  { st with
    minMedian := (selFirst keepMin 0 st.medBuf).2
    winIdx := st.medIdxBuf.getD (selFirst keepMin 0 st.medBuf).1 0
    launches := st.launches ++
      (if 1 < divup inp.iterations HG_THREADS then [Launch.fm] else []) }

/-- Phase 6, LMedS: compute_lmeds_inliers reads the winning homography
from the bestH buffer and counts, per 256-correspondence block, the
correspondences whose residual is strictly below the winning median
(modelled from the spec: classify as inlier when the residual is below
the robust scale). -/
def stepCL (s : Sched) (inp : HInput) (st : St) : St :=
  { st with
    inliersBuf := (s.clParts inp.cs).map
      (fun b => b.countP (fun c => decide (residual st.bestH c < st.minMedian)))
    launches := st.launches ++ [Launch.cl] }

/-- Phase 7, LMedS: kernel::reduce<unsigned, unsigned, af_add_t> sums
the per-block counts; the host reads the total as the final inlier
count. -/
def stepSum (st : St) : St :=
  { st with
    inliersH := st.inliersBuf.sum
    launches := st.launches ++ [Launch.addRed] }

/-- The phase list of computeH under a schedule: the source's launch
and read sequence for each estimator kind. -/
def pipeline (s : Sched) (ht : HType) (inp : HInput) : List (St → St) :=
  match ht with
  | HType.ransac => [stepCH inp, stepEHr s inp, stepIR, stepCopy]
  | HType.lmeds =>
      [stepCH inp, stepEHl inp, stepSort s, stepCM, stepFM inp, stepCopy,
       stepCL s inp, stepSum]

/-- Run a phase list in order. -/
def runSteps (fs : List (St → St)) (st : St) : St :=
  fs.foldl (fun acc f => f acc) st

/-- computeH under an explicit schedule. -/
def computeHSched (s : Sched) (ht : HType) (inp : HInput) : St :=
  runSteps (pipeline s ht inp) (initSt inp)

/-- The computeH model: the full pipeline under the canonical
schedule.  The returned final inlier count is the inliersH field, the
output buffer contents are bestH, the caller's residual scratch buffer
is err. -/
def computeH (ht : HType) (inp : HInput) : St :=
  computeHSched canonSched ht inp

/-- Execution of only the first n phases: a run that fails in phase
n + 1 (kernel launch error, allocation failure, read error) leaves
exactly this state behind, so n < numSteps ht describes the possible
failing runs. -/
def runUpTo (ht : HType) (inp : HInput) (n : ℕ) : St :=
  runSteps ((pipeline canonSched ht inp).take n) (initSt inp)

/-- Number of phases per estimator kind. -/
def numSteps (ht : HType) : ℕ :=
  match ht with
  | HType.ransac => 4
  | HType.lmeds => 8

/-- Position of the bestH copy phase in the phase list. -/
def copyPos (ht : HType) : ℕ :=
  match ht with
  | HType.ransac => 3
  | HType.lmeds => 5

/-- Per-iteration inlier counts over the entire correspondence set (the
RANSAC score list). -/
def iterCounts (inp : HInput) : List ℕ :=
  (List.range inp.iterations).map
    (fun i => iterCountIn inp.inlier_thr (candRow inp i) inp.cs)

/-- The residual matrix: row i holds iteration i's reprojection errors
over the whole correspondence set, in correspondence order. -/
def resMatrix (inp : HInput) : List (List ℚ) :=
  (List.range inp.iterations).map (fun i => inp.cs.map (residual (candRow inp i)))

/-- The per-iteration median residuals (the LMedS score list). -/
def iterMedians (inp : HInput) : List ℚ :=
  (resMatrix inp).map
    (fun r => rowMedianOfSorted (List.insertionSort (fun a b => a ≤ b) r))

/-- The scalar type template parameter T of computeH. -/
inductive CType where
  | f32
  | f64
deriving DecidableEq, Repr

/-- FLT_EPSILON as the source streams it at line 75: the value passes
through a std::ostringstream at its default precision of 6
significant digits, so the option text is EPS=1.19209e-07, embedded
here as the exact decimal it denotes. -/
def fltEpsStreamed : ℚ := 119209 / 10 ^ 12

/-- DBL_EPSILON as the source streams it at line 73: the
default-precision ostringstream renders it with 6 significant digits,
so the option text is EPS=2.22045e-16, embedded here as the exact
decimal it denotes. -/
def dblEpsStreamed : ℚ := 222045 / 10 ^ 21

/-- One -D option of the kernel build string assembled at lines 66-80
of the source. -/
inductive COpt where
  | defT (t : CType)
  | useDouble
  | epsDef (v : ℚ)
  | ransacDef
  | lmedsDef
deriving DecidableEq, Repr

/-- The option list computeH builds for the one-time kernel
compilation: -D T=<type>, then USE_DOUBLE and EPS=<streamed
DBL_EPSILON> when T is double and EPS=<streamed FLT_EPSILON>
otherwise, then the estimator define.  The EPS values are the 6
significant-digit decimals the default-precision ostringstream
produces, not the exact machine epsilons. -/
def compileOptions (t : CType) (ht : HType) : List COpt :=
  [COpt.defT t] ++
  (if t = CType.f64 then [COpt.useDouble, COpt.epsDef dblEpsStreamed]
   else [COpt.epsDef fltEpsStreamed]) ++
  (match ht with
   | HType.ransac => [COpt.ransacDef]
   | HType.lmeds => [COpt.lmedsDef])

/-- Follows the spec's words: the machine epsilon of the working
coordinate precision. -/
def machineEps (t : CType) : ℚ :=
  match t with
  | CType.f32 => 1 / 2 ^ 23
  | CType.f64 => 1 / 2 ^ 52

/-- The launch sequence the source produces for each mode: it is built
unconditionally, with the only data dependence being whether the
LMedS per-block median reduction needs a second level. -/
def expectedLaunches (ht : HType) (inp : HInput) : List Launch :=
  match ht with
  | HType.ransac => [Launch.ch, Launch.eh, Launch.ired, Launch.copy]
  | HType.lmeds =>
      [Launch.ch, Launch.eh, Launch.sortE, Launch.cm] ++
      (if 1 < divup inp.iterations HG_THREADS then [Launch.fm] else []) ++
      [Launch.copy, Launch.cl, Launch.addRed]

/-- The (iteration index, score) pair the RANSAC selection settles on:
first-seen argmax over the per-iteration inlier counts. -/
def ransacSel (inp : HInput) : ℕ × ℕ :=
  selFirst keepMax 0 (iterCounts inp)

/-- The (iteration index, median) pair the LMedS selection settles on:
first-seen argmin over the per-iteration medians. -/
def lmedsSel (inp : HInput) : ℕ × ℚ :=
  selFirst keepMin 0 (iterMedians inp)

section ModelLemmas

theorem getD_range_map {γ : Type} (n : ℕ) (f : ℕ → γ) (dflt : γ) (i : ℕ) (hi : i < n) :
    ((List.range n).map f).getD i dflt = f i := by
  rw [List.getD_eq_getElem _ _ (by simpa using hi)]
  rw [List.getElem_map, List.getElem_range]

theorem range_map_getD {α γ : Type} (l : List α) (dflt : α) (f : α → γ) :
    (List.range l.length).map (fun i => f (l.getD i dflt)) = l.map f := by
  apply List.ext_getElem
  · simp
  · intro i h1 h2
    rw [List.getElem_map, List.getElem_range, List.getElem_map]
    congr 1
    rw [List.getD_eq_getElem]

theorem getD_of_get?_eq_some {α : Type} {l : List α} {n : ℕ} {a : α} (d : α)
    (h : l.get? n = some a) : l.getD n d = a := by
  have hn := lt_length_of_get?_eq_some h
  rw [List.get?_eq_getElem?, List.getElem?_eq_getElem hn] at h
  injection h with h
  rw [List.getD_eq_getElem _ _ hn, h]

theorem normalize9_length (r : List ℚ) : (normalize9 r).length = 9 := by
  unfold normalize9
  split <;> rfl

theorem normalize9_getD8 (r : List ℚ) (h : r.getD 8 0 ≠ 0) :
    (normalize9 r).getD 8 0 = 1 := by
  unfold normalize9
  rw [if_neg h]
  show r.getD 8 0 / r.getD 8 0 = 1
  exact div_self h

theorem rowAt_flatten (rows : List (List ℚ)) (h9 : ∀ r ∈ rows, r.length = 9) :
    ∀ i, i < rows.length → rowAt rows.flatten i = rows.getD i [] := by
  induction rows with
  | nil =>
      intro i hi
      simp at hi
  | cons r rows ih =>
      intro i hi
      have hr9 : r.length = 9 := h9 r (by simp)
      rcases i with _ | i
      · show ((r ++ rows.flatten).drop (0 * 9)).take 9 = (r :: rows).getD 0 []
        rw [Nat.zero_mul, List.drop_zero, List.getD_cons_zero, ← hr9]
        exact List.take_left r rows.flatten
      · show ((r ++ rows.flatten).drop ((i + 1) * 9)).take 9 = (r :: rows).getD (i + 1) []
        have hd : (i + 1) * 9 = r.length + i * 9 := by rw [hr9]; ring
        rw [hd, List.drop_append, List.getD_cons_succ]
        exact ih (fun x hx => h9 x (by simp [hx])) i (by simpa using hi)

theorem candRow_length (inp : HInput) (i : ℕ) : (candRow inp i).length = 9 :=
  normalize9_length _

theorem rowAt_candBuf (inp : HInput) (i : ℕ) (hi : i < inp.iterations) :
    rowAt (candBuf inp) i = candRow inp i := by
  unfold candBuf
  rw [rowAt_flatten _ ?h9 i (by simpa using hi)]
  case h9 =>
    intro r hr
    rcases List.mem_map.mp hr with ⟨j, _, hj⟩
    rw [← hj]
    exact candRow_length inp j
  exact getD_range_map inp.iterations (candRow inp) [] i hi

theorem sum_map_countP (parts : List (List Corr)) (p : Corr → Bool) :
    (parts.map (fun b => b.countP p)).sum = parts.flatten.countP p := by
  induction parts with
  | nil => simp
  | cons b parts ih =>
      rw [List.map_cons, List.sum_cons, List.flatten_cons, List.countP_append, ih]

theorem insertionSort_perm_inv (r r' : List ℚ) (h : r'.Perm r) :
    List.insertionSort (fun a b => a ≤ b) r' = List.insertionSort (fun a b => a ≤ b) r := by
  refine @List.eq_of_perm_of_sorted ℚ (fun a b => a ≤ b) ?_ _ _ ?_ ?_ ?_
  · exact ⟨fun a b h1 h2 => le_antisymm h1 h2⟩
  · exact (List.perm_insertionSort _ r').trans (h.trans (List.perm_insertionSort _ r).symm)
  · exact List.sorted_insertionSort _ r'
  · exact List.sorted_insertionSort _ r

theorem get?_eq_some_getD {α : Type} (l : List α) (d : α) (n : ℕ) (hn : n < l.length) :
    l.get? n = some (l.getD n d) := by
  rw [List.get?_eq_getElem?, List.getElem?_eq_getElem hn, List.getD_eq_getElem _ _ hn]

theorem canonSched_valid : canonSched.Valid := by
  refine ⟨fun _ l => List.Perm.refl l, fun l => ?_, fun _ r => List.Perm.refl r⟩
  show (chunks256 l).flatten.Perm l
  rw [chunks256_flatten]

theorem iterCounts_length (inp : HInput) : (iterCounts inp).length = inp.iterations := by
  simp [iterCounts]

theorem iterMedians_length (inp : HInput) : (iterMedians inp).length = inp.iterations := by
  simp [iterMedians, resMatrix]

theorem iterCounts_ne_nil (inp : HInput) (h1 : 1 ≤ inp.iterations) :
    iterCounts inp ≠ [] := by
  intro hc
  have h := congrArg List.length hc
  rw [iterCounts_length] at h
  simp at h
  omega

theorem iterMedians_ne_nil (inp : HInput) (h1 : 1 ≤ inp.iterations) :
    iterMedians inp ≠ [] := by
  intro hc
  have h := congrArg List.length hc
  rw [iterMedians_length] at h
  simp at h
  omega

theorem ransac_run (s : Sched) (inp : HInput) :
    computeHSched s HType.ransac inp
      = stepCopy (stepIR (stepEHr s inp (stepCH inp (initSt inp)))) := rfl

theorem lmeds_run (s : Sched) (inp : HInput) :
    computeHSched s HType.lmeds inp
      = stepSum (stepCL s inp (stepCopy (stepFM inp (stepCM (stepSort s
          (stepEHl inp (stepCH inp (initSt inp)))))))) := rfl

theorem ehCounts_eq (s : Sched) (hs : s.Valid) (inp : HInput) :
    (List.range inp.iterations).map
      (fun i => iterCountIn inp.inlier_thr (rowAt (candBuf inp) i) (s.evalOrd i inp.cs))
      = iterCounts inp := by
  unfold iterCounts
  apply List.map_congr_left
  intro i hi
  rw [rowAt_candBuf inp i (List.mem_range.mp hi)]
  exact (hs.1 i inp.cs).countP_eq _

theorem ehPairs_eq (s : Sched) (hs : s.Valid) (inp : HInput) :
    ehPairs s inp (candBuf inp) = blockBests keepMax 0 0 (chunks256 (iterCounts inp)) := by
  unfold ehPairs
  rw [ehCounts_eq s hs inp]

theorem ransac_sel_eq (s : Sched) (hs : s.Valid) (inp : HInput) (h1 : 1 ≤ inp.iterations) :
    selectBest keepMax 0 (ehPairs s inp (candBuf inp)) = ransacSel inp := by
  rw [ehPairs_eq s hs inp]
  exact twoLevel_eq_selFirst keepMax_trans keepMax_ntrans keepMax_irr 0 _
    (iterCounts_ne_nil inp h1)

theorem ransac_winIdx (s : Sched) (hs : s.Valid) (inp : HInput) (h1 : 1 ≤ inp.iterations) :
    (computeHSched s HType.ransac inp).winIdx = (ransacSel inp).1 := by
  calc (computeHSched s HType.ransac inp).winIdx
      = (selectBest keepMax 0 (ehPairs s inp (candBuf inp))).1 := rfl
    _ = (ransacSel inp).1 := by rw [ransac_sel_eq s hs inp h1]

theorem ransac_inliersH (s : Sched) (hs : s.Valid) (inp : HInput) (h1 : 1 ≤ inp.iterations) :
    (computeHSched s HType.ransac inp).inliersH = (ransacSel inp).2 := by
  calc (computeHSched s HType.ransac inp).inliersH
      = (selectBest keepMax 0 (ehPairs s inp (candBuf inp))).2 := rfl
    _ = (ransacSel inp).2 := by rw [ransac_sel_eq s hs inp h1]

theorem ransacSel_spec (inp : HInput) (h1 : 1 ≤ inp.iterations) :
    SelSpec keepMax (iterCounts inp) (ransacSel inp).1 (ransacSel inp).2 :=
  selFirst_spec keepMax_trans keepMax_ntrans keepMax_irr 0 (iterCounts inp)
    (iterCounts_ne_nil inp h1)

theorem ransacSel_lt (inp : HInput) (h1 : 1 ≤ inp.iterations) :
    (ransacSel inp).1 < inp.iterations := by
  have h := lt_length_of_get?_eq_some (ransacSel_spec inp h1).1
  rwa [iterCounts_length] at h

theorem ransac_bestH (s : Sched) (hs : s.Valid) (inp : HInput) (h1 : 1 ≤ inp.iterations) :
    (computeHSched s HType.ransac inp).bestH = candRow inp (ransacSel inp).1 := by
  calc (computeHSched s HType.ransac inp).bestH
      = rowAt (candBuf inp) (computeHSched s HType.ransac inp).winIdx := rfl
    _ = candRow inp (ransacSel inp).1 := by
        rw [ransac_winIdx s hs inp h1]
        exact rowAt_candBuf inp _ (ransacSel_lt inp h1)

theorem lmeds_err (s : Sched) (hs : s.Valid) (inp : HInput) :
    (computeHSched s HType.lmeds inp).err
      = (resMatrix inp).map (fun r => List.insertionSort (fun a b => a ≤ b) r) := by
  have hE : (List.range inp.iterations).map
      (fun i => inp.cs.map (residual (rowAt (candBuf inp) i))) = resMatrix inp := by
    unfold resMatrix
    apply List.map_congr_left
    intro i hi
    rw [rowAt_candBuf inp i (List.mem_range.mp hi)]
  calc (computeHSched s HType.lmeds inp).err
      = (List.range ((List.range inp.iterations).map
          (fun i => inp.cs.map (residual (rowAt (candBuf inp) i)))).length).map
        (fun i => List.insertionSort (fun a b => a ≤ b)
          (s.sortOrd i (((List.range inp.iterations).map
            (fun i => inp.cs.map (residual (rowAt (candBuf inp) i)))).getD i []))) := rfl
    _ = (List.range (resMatrix inp).length).map
        (fun i => List.insertionSort (fun a b => a ≤ b)
          (s.sortOrd i ((resMatrix inp).getD i []))) := by rw [hE]
    _ = (List.range (resMatrix inp).length).map
        (fun i => (fun r => List.insertionSort (fun a b => a ≤ b) r)
          ((resMatrix inp).getD i [])) := by
          apply List.map_congr_left
          intro i _
          exact insertionSort_perm_inv _ _ (hs.2.2 i _)
    _ = (resMatrix inp).map (fun r => List.insertionSort (fun a b => a ≤ b) r) :=
          range_map_getD (resMatrix inp) [] _

theorem lmeds_selpair (s : Sched) (hs : s.Valid) (inp : HInput) (h1 : 1 ≤ inp.iterations) :
    ((computeHSched s HType.lmeds inp).winIdx,
      (computeHSched s HType.lmeds inp).minMedian) = lmedsSel inp := by
  have hrfl : ((computeHSched s HType.lmeds inp).winIdx,
      (computeHSched s HType.lmeds inp).minMedian)
      = selectBest keepMin 0 (cmPairs ((computeHSched s HType.lmeds inp).err)) := rfl
  rw [hrfl, lmeds_err s hs inp]
  unfold cmPairs
  have hm : (((resMatrix inp).map
      (fun r => List.insertionSort (fun a b => a ≤ b) r)).map rowMedianOfSorted)
      = iterMedians inp := by
    rw [List.map_map]
    rfl
  rw [hm]
  exact twoLevel_eq_selFirst keepMin_trans keepMin_ntrans keepMin_irr 0 _
    (iterMedians_ne_nil inp h1)

theorem lmeds_winIdx (s : Sched) (hs : s.Valid) (inp : HInput) (h1 : 1 ≤ inp.iterations) :
    (computeHSched s HType.lmeds inp).winIdx = (lmedsSel inp).1 := by
  have h := congrArg Prod.fst (lmeds_selpair s hs inp h1)
  exact h

theorem lmeds_minMedian (s : Sched) (hs : s.Valid) (inp : HInput) (h1 : 1 ≤ inp.iterations) :
    (computeHSched s HType.lmeds inp).minMedian = (lmedsSel inp).2 := by
  have h := congrArg Prod.snd (lmeds_selpair s hs inp h1)
  exact h

theorem lmedsSel_spec (inp : HInput) (h1 : 1 ≤ inp.iterations) :
    SelSpec keepMin (iterMedians inp) (lmedsSel inp).1 (lmedsSel inp).2 :=
  selFirst_spec keepMin_trans keepMin_ntrans keepMin_irr 0 (iterMedians inp)
    (iterMedians_ne_nil inp h1)

theorem lmedsSel_lt (inp : HInput) (h1 : 1 ≤ inp.iterations) :
    (lmedsSel inp).1 < inp.iterations := by
  have h := lt_length_of_get?_eq_some (lmedsSel_spec inp h1).1
  rwa [iterMedians_length] at h

theorem lmeds_bestH (s : Sched) (hs : s.Valid) (inp : HInput) (h1 : 1 ≤ inp.iterations) :
    (computeHSched s HType.lmeds inp).bestH = candRow inp (lmedsSel inp).1 := by
  calc (computeHSched s HType.lmeds inp).bestH
      = rowAt (candBuf inp) (computeHSched s HType.lmeds inp).winIdx := rfl
    _ = candRow inp (lmedsSel inp).1 := by
        rw [lmeds_winIdx s hs inp h1]
        exact rowAt_candBuf inp _ (lmedsSel_lt inp h1)

theorem lmeds_inliersH (s : Sched) (hs : s.Valid) (inp : HInput) (h1 : 1 ≤ inp.iterations) :
    (computeHSched s HType.lmeds inp).inliersH
      = inp.cs.countP (fun c =>
          decide (residual (candRow inp (lmedsSel inp).1) c < (lmedsSel inp).2)) := by
  calc (computeHSched s HType.lmeds inp).inliersH
      = ((s.clParts inp.cs).map (fun b => b.countP (fun c =>
          decide (residual (computeHSched s HType.lmeds inp).bestH c
            < (computeHSched s HType.lmeds inp).minMedian)))).sum := rfl
    _ = ((s.clParts inp.cs).flatten).countP (fun c =>
          decide (residual (computeHSched s HType.lmeds inp).bestH c
            < (computeHSched s HType.lmeds inp).minMedian)) := sum_map_countP _ _
    _ = inp.cs.countP (fun c =>
          decide (residual (computeHSched s HType.lmeds inp).bestH c
            < (computeHSched s HType.lmeds inp).minMedian)) := (hs.2.1 inp.cs).countP_eq _
    _ = inp.cs.countP (fun c =>
          decide (residual (candRow inp (lmedsSel inp).1) c < (lmedsSel inp).2)) := by
          rw [lmeds_bestH s hs inp h1, lmeds_minMedian s hs inp h1]

theorem ransac_launches (s : Sched) (inp : HInput) :
    (computeHSched s HType.ransac inp).launches = expectedLaunches HType.ransac inp := rfl

theorem lmeds_launches (s : Sched) (inp : HInput) :
    (computeHSched s HType.lmeds inp).launches = expectedLaunches HType.lmeds inp := by
  show ((((((([] ++ [Launch.ch]) ++ [Launch.eh]) ++ [Launch.sortE]) ++ [Launch.cm]) ++
      (if 1 < divup inp.iterations HG_THREADS then [Launch.fm] else [])) ++
      [Launch.copy]) ++ [Launch.cl]) ++ [Launch.addRed]
      = expectedLaunches HType.lmeds inp
  unfold expectedLaunches
  by_cases h : 1 < divup inp.iterations HG_THREADS <;> simp [h]

theorem getD_map {α γ : Type} (f : α → γ) (l : List α) (i : ℕ) (d : γ) (d' : α)
    (hi : i < l.length) : (l.map f).getD i d = f (l.getD i d') := by
  rw [List.getD_eq_getElem _ _ (by simpa using hi), List.getElem_map,
    List.getD_eq_getElem _ _ hi]

theorem resMatrix_length (inp : HInput) : (resMatrix inp).length = inp.iterations := by
  simp [resMatrix]

theorem resMatrix_getD (inp : HInput) (i : ℕ) (hi : i < inp.iterations) :
    (resMatrix inp).getD i [] = inp.cs.map (residual (candRow inp i)) := by
  unfold resMatrix
  exact getD_range_map _ _ _ i hi

theorem iterCounts_getD (inp : HInput) (i : ℕ) (hi : i < inp.iterations) :
    (iterCounts inp).getD i 0
      = inp.cs.countP (fun c => decide (residual (candRow inp i) c ≤ inp.inlier_thr)) := by
  unfold iterCounts
  rw [getD_range_map _ _ _ i hi]
  rfl

theorem iterMedians_getD (inp : HInput) (i : ℕ) (hi : i < inp.iterations) :
    (iterMedians inp).getD i 0
      = rowMedianOfSorted (List.insertionSort (fun a b => a ≤ b)
          (inp.cs.map (residual (candRow inp i)))) := by
  unfold iterMedians
  rw [getD_map _ _ i 0 [] (by rw [resMatrix_length]; exact hi),
    resMatrix_getD inp i hi]

theorem runUpTo_bestH_early (ht : HType) (inp : HInput) (n : ℕ) (hn : n ≤ copyPos ht) :
    (runUpTo ht inp n).bestH = inp.bestH0 ∧ (runUpTo ht inp n).bestHWrites = 0 := by
  rcases ht
  · have hn3 : n ≤ 3 := hn
    interval_cases n <;> exact ⟨rfl, rfl⟩
  · have hn5 : n ≤ 5 := hn
    interval_cases n <;> exact ⟨rfl, rfl⟩

/-- The caller-visible outcome of a run: the bestH output buffer
contents, the returned inlier count, the caller's err scratch buffer,
the candidate scratch buffer, the number of writes to bestH and the
launch log. -/
structure Obs where
  bestH : List ℚ
  count : ℕ
  err : List (List ℚ)
  H : List ℚ
  writes : ℕ
  launches : List Launch
deriving DecidableEq, Repr

/-- Project a final state onto what the caller can see. -/
def obsOf (st : St) : Obs :=
  { bestH := st.bestH
    count := st.inliersH
    err := st.err
    H := st.H
    writes := st.bestHWrites
    launches := st.launches }

/-- A maximally reordering valid schedule: reversed eval and sort
orders, and a single-block classify decomposition. -/
def revSched : Sched :=
  { evalOrd := fun _ l => l.reverse
    clParts := fun l => [l]
    sortOrd := fun _ r => r.reverse }

theorem revSched_valid : revSched.Valid := by
  refine ⟨fun _ l => List.reverse_perm l, fun l => ?_, fun _ r => List.reverse_perm r⟩
  show ([l] : List (List Corr)).flatten.Perm l
  simp

/-- A small valid concrete input: four correspondences, two candidate
rows (the second a scalar multiple of the first, so the two
iterations' scores tie and the tie-break is exercised). -/
def winp : HInput :=
  { cs := [⟨0, 0, 0, 0⟩, ⟨1, 0, 1, 0⟩, ⟨0, 1, 0, 1⟩, ⟨1, 1, 2, 2⟩]
    rnd := [0, 1, 2, 3, 0, 1, 2, 3]
    rawH := [[1, 0, 0, 0, 1, 0, 0, 0, 1], [2, 0, 0, 0, 2, 0, 0, 0, 2]]
    iterations := 2
    inlier_thr := 1
    errInit := [[5, 5, 5, 5], [5, 5, 5, 5]]
    bestH0 := [0, 0, 0, 0, 0, 0, 0, 0, 0] }

/-- Concrete valid input for the C1 counterexample. -/
def cexInp1 : HInput :=
  { cs := [⟨0, 0, 0, 0⟩, ⟨1, 0, 1, 0⟩, ⟨0, 1, 0, 1⟩, ⟨1, 1, 1, 1⟩]
    rnd := [0, 1, 2, 3]
    rawH := [[1, 0, 0, 0, 1, 0, 0, 0, 1]]
    iterations := 1
    inlier_thr := 1
    errInit := [[0, 0, 0, 0]]
    bestH0 := [0, 0, 0, 0, 0, 0, 0, 0, 0] }

/-- Concrete input for the C5 counterexample. -/
def cexInp5 : HInput :=
  { cs := [⟨0, 0, 0, 0⟩, ⟨1, 0, 1, 0⟩, ⟨0, 1, 0, 1⟩, ⟨1, 1, 1, 1⟩]
    rnd := [0, 1, 2, 3]
    rawH := [[1, 0, 0, 0, 1, 0, 0, 0, 1]]
    iterations := 1
    inlier_thr := 1
    errInit := [[0, 0, 0, 0]]
    bestH0 := [0, 0, 0, 0, 0, 0, 0, 0, 0] }

/-- Concrete input with a configuration error: only three
correspondences (fewer than the minimal four the spec requires). -/
def badInp : HInput :=
  { cs := [⟨0, 0, 0, 0⟩, ⟨1, 0, 1, 0⟩, ⟨0, 1, 0, 1⟩]
    rnd := [0, 1, 2, 0]
    rawH := [[1, 0, 0, 0, 1, 0, 0, 0, 1]]
    iterations := 1
    inlier_thr := 1
    errInit := [[0, 0, 0]]
    bestH0 := [0, 0, 0, 0, 0, 0, 0, 0, 0] }

theorem ransac_err (s : Sched) (inp : HInput) :
    (computeHSched s HType.ransac inp).err = inp.errInit := rfl

theorem ransac_H_buf (s : Sched) (inp : HInput) :
    (computeHSched s HType.ransac inp).H = candBuf inp := rfl

theorem ransac_writes (s : Sched) (inp : HInput) :
    (computeHSched s HType.ransac inp).bestHWrites = 1 := rfl

theorem lmeds_H_buf (s : Sched) (inp : HInput) :
    (computeHSched s HType.lmeds inp).H = candBuf inp := rfl

theorem lmeds_writes (s : Sched) (inp : HInput) :
    (computeHSched s HType.lmeds inp).bestHWrites = 1 := rfl

end ModelLemmas

/-- C1 counterexample: the claim as stated says the Refiner re-runs
residual thresholding after selection in RANSAC mode.  On a concrete
valid input the complete RANSAC launch sequence is
[compute_homography, eval_homography, ireduce, copy]: no evaluation or
classification kernel runs after the ireduce selection, so there is no
second thresholding pass. -/
theorem claim1_counterexample :
    (computeH HType.ransac cexInp1).launches
        = [Launch.ch, Launch.eh, Launch.ired, Launch.copy]
    ∧ Launch.eh ∉ (computeH HType.ransac cexInp1).launches.drop 2
    ∧ Launch.cl ∉ (computeH HType.ransac cexInp1).launches.drop 2 := by
  refine ⟨by decide, by decide, by decide⟩

/-- C1 (amended): in RANSAC mode the single evaluation phase already
thresholds every candidate against the entire correspondence set, and
the returned final inlier count equals the number of correspondences
in the full set whose reprojection error under the winning homography
is at most inlier_thr; no further thresholding kernel runs after the
selection. -/
theorem claim1_theorem (inp : HInput) (h1 : 1 ≤ inp.iterations) :
    (computeH HType.ransac inp).inliersH
      = inp.cs.countP (fun c =>
          decide (residual (computeH HType.ransac inp).bestH c ≤ inp.inlier_thr))
    ∧ (computeH HType.ransac inp).launches = expectedLaunches HType.ransac inp := by
  constructor
  · have hspec := ransacSel_spec inp h1
    have hlt := ransacSel_lt inp h1
    calc (computeH HType.ransac inp).inliersH
        = (ransacSel inp).2 := ransac_inliersH canonSched canonSched_valid inp h1
      _ = (iterCounts inp).getD (ransacSel inp).1 0 :=
          (getD_of_get?_eq_some 0 hspec.1).symm
      _ = inp.cs.countP (fun c =>
            decide (residual (candRow inp (ransacSel inp).1) c ≤ inp.inlier_thr)) :=
          iterCounts_getD inp _ hlt
      _ = inp.cs.countP (fun c =>
            decide (residual (computeH HType.ransac inp).bestH c ≤ inp.inlier_thr)) := by
          unfold computeH
          rw [ransac_bestH canonSched canonSched_valid inp h1]
  · exact ransac_launches canonSched inp

/-- C1 witness at a concrete input. -/
theorem claim1_witness :
    (computeH HType.ransac winp).inliersH
      = winp.cs.countP (fun c =>
          decide (residual (computeH HType.ransac winp).bestH c ≤ winp.inlier_thr))
    ∧ (computeH HType.ransac winp).launches = expectedLaunches HType.ransac winp :=
  claim1_theorem winp (by decide)

/-- C2 (confirmed): in LMedS mode the final inlier count equals the
number of correspondences whose residual under the winning homography
is strictly below the winning iteration's median residual, and that
median is the median of the sorted residual row of the winning
homography over the whole correspondence set. -/
theorem claim2_theorem (inp : HInput) (h1 : 1 ≤ inp.iterations) :
    (computeH HType.lmeds inp).inliersH
      = inp.cs.countP (fun c =>
          decide (residual (computeH HType.lmeds inp).bestH c
            < (computeH HType.lmeds inp).minMedian))
    ∧ (computeH HType.lmeds inp).minMedian
      = rowMedianOfSorted (List.insertionSort (fun a b => a ≤ b)
          (inp.cs.map (residual (computeH HType.lmeds inp).bestH))) := by
  constructor
  · calc (computeH HType.lmeds inp).inliersH
        = inp.cs.countP (fun c =>
            decide (residual (candRow inp (lmedsSel inp).1) c < (lmedsSel inp).2)) :=
          lmeds_inliersH canonSched canonSched_valid inp h1
      _ = inp.cs.countP (fun c =>
            decide (residual (computeH HType.lmeds inp).bestH c
              < (computeH HType.lmeds inp).minMedian)) := by
          unfold computeH
          rw [lmeds_bestH canonSched canonSched_valid inp h1,
            lmeds_minMedian canonSched canonSched_valid inp h1]
  · have hspec := lmedsSel_spec inp h1
    have hlt := lmedsSel_lt inp h1
    calc (computeH HType.lmeds inp).minMedian
        = (lmedsSel inp).2 := lmeds_minMedian canonSched canonSched_valid inp h1
      _ = (iterMedians inp).getD (lmedsSel inp).1 0 :=
          (getD_of_get?_eq_some 0 hspec.1).symm
      _ = rowMedianOfSorted (List.insertionSort (fun a b => a ≤ b)
            (inp.cs.map (residual (candRow inp (lmedsSel inp).1)))) :=
          iterMedians_getD inp _ hlt
      _ = rowMedianOfSorted (List.insertionSort (fun a b => a ≤ b)
            (inp.cs.map (residual (computeH HType.lmeds inp).bestH))) := by
          unfold computeH
          rw [lmeds_bestH canonSched canonSched_valid inp h1]

/-- C2 witness at a concrete input. -/
theorem claim2_witness :
    (computeH HType.lmeds winp).inliersH
      = winp.cs.countP (fun c =>
          decide (residual (computeH HType.lmeds winp).bestH c
            < (computeH HType.lmeds winp).minMedian))
    ∧ (computeH HType.lmeds winp).minMedian
      = rowMedianOfSorted (List.insertionSort (fun a b => a ≤ b)
          (winp.cs.map (residual (computeH HType.lmeds winp).bestH))) :=
  claim2_theorem winp (by decide)

/-- C3 (confirmed): in both modes the selected winning iteration index
carries the extremal score and every strictly smaller index has a
strictly worse score, so on an exact tie the lowest iteration index is
selected. -/
theorem claim3_theorem (inp : HInput) (h1 : 1 ≤ inp.iterations) :
    ((computeH HType.ransac inp).winIdx < inp.iterations
      ∧ (iterCounts inp).getD (computeH HType.ransac inp).winIdx 0
          = (computeH HType.ransac inp).inliersH
      ∧ (∀ j, j < inp.iterations →
          (iterCounts inp).getD j 0 ≤ (computeH HType.ransac inp).inliersH)
      ∧ (∀ j, j < (computeH HType.ransac inp).winIdx →
          (iterCounts inp).getD j 0 < (computeH HType.ransac inp).inliersH))
    ∧ ((computeH HType.lmeds inp).winIdx < inp.iterations
      ∧ (iterMedians inp).getD (computeH HType.lmeds inp).winIdx 0
          = (computeH HType.lmeds inp).minMedian
      ∧ (∀ j, j < inp.iterations →
          (computeH HType.lmeds inp).minMedian ≤ (iterMedians inp).getD j 0)
      ∧ (∀ j, j < (computeH HType.lmeds inp).winIdx →
          (computeH HType.lmeds inp).minMedian < (iterMedians inp).getD j 0)) := by
  have hrw : (computeH HType.ransac inp).winIdx = (ransacSel inp).1 :=
    ransac_winIdx canonSched canonSched_valid inp h1
  have hrc : (computeH HType.ransac inp).inliersH = (ransacSel inp).2 :=
    ransac_inliersH canonSched canonSched_valid inp h1
  have hspecR := ransacSel_spec inp h1
  have hlw : (computeH HType.lmeds inp).winIdx = (lmedsSel inp).1 :=
    lmeds_winIdx canonSched canonSched_valid inp h1
  have hlm : (computeH HType.lmeds inp).minMedian = (lmedsSel inp).2 :=
    lmeds_minMedian canonSched canonSched_valid inp h1
  have hspecL := lmedsSel_spec inp h1
  constructor
  · refine ⟨?_, ?_, ?_, ?_⟩
    · rw [hrw]
      exact ransacSel_lt inp h1
    · rw [hrw, hrc]
      exact getD_of_get?_eq_some 0 hspecR.1
    · intro j hj
      rw [hrc]
      have hjl : j < (iterCounts inp).length := by
        rw [iterCounts_length]
        exact hj
      have h := hspecR.2.1 j ((iterCounts inp).getD j 0) (get?_eq_some_getD _ 0 j hjl)
      simp only [keepMax, decide_eq_false_iff_not] at h
      omega
    · intro j hj
      rw [hrw] at hj
      rw [hrc]
      have hjl : j < (iterCounts inp).length := by
        rw [iterCounts_length]
        exact lt_trans hj (ransacSel_lt inp h1)
      have h := hspecR.2.2 j ((iterCounts inp).getD j 0) hj (get?_eq_some_getD _ 0 j hjl)
      simp only [keepMax, decide_eq_true_eq] at h
      omega
  · refine ⟨?_, ?_, ?_, ?_⟩
    · rw [hlw]
      exact lmedsSel_lt inp h1
    · rw [hlw, hlm]
      exact getD_of_get?_eq_some 0 hspecL.1
    · intro j hj
      rw [hlm]
      have hjl : j < (iterMedians inp).length := by
        rw [iterMedians_length]
        exact hj
      have h := hspecL.2.1 j ((iterMedians inp).getD j 0) (get?_eq_some_getD _ 0 j hjl)
      simp only [keepMin, decide_eq_false_iff_not] at h
      exact not_lt.mp h
    · intro j hj
      rw [hlw] at hj
      rw [hlm]
      have hjl : j < (iterMedians inp).length := by
        rw [iterMedians_length]
        exact lt_trans hj (lmedsSel_lt inp h1)
      have h := hspecL.2.2 j ((iterMedians inp).getD j 0) hj (get?_eq_some_getD _ 0 j hjl)
      simp only [keepMin, decide_eq_true_eq] at h
      exact h

/-- C3 witness at a concrete input whose two iterations tie. -/
theorem claim3_witness :
    ((computeH HType.ransac winp).winIdx < winp.iterations
      ∧ (iterCounts winp).getD (computeH HType.ransac winp).winIdx 0
          = (computeH HType.ransac winp).inliersH
      ∧ (∀ j, j < winp.iterations →
          (iterCounts winp).getD j 0 ≤ (computeH HType.ransac winp).inliersH)
      ∧ (∀ j, j < (computeH HType.ransac winp).winIdx →
          (iterCounts winp).getD j 0 < (computeH HType.ransac winp).inliersH))
    ∧ ((computeH HType.lmeds winp).winIdx < winp.iterations
      ∧ (iterMedians winp).getD (computeH HType.lmeds winp).winIdx 0
          = (computeH HType.lmeds winp).minMedian
      ∧ (∀ j, j < winp.iterations →
          (computeH HType.lmeds winp).minMedian ≤ (iterMedians winp).getD j 0)
      ∧ (∀ j, j < (computeH HType.lmeds winp).winIdx →
          (computeH HType.lmeds winp).minMedian < (iterMedians winp).getD j 0)) :=
  claim3_theorem winp (by decide)

/-- C4 (confirmed): computeH is deterministic over schedules: any two
valid execution schedules of the parallel phases produce identical
caller-visible outcomes (bestH contents, final inlier count, err and H
buffer contents, write count and launch sequence); in particular two
runs on identical inputs, whatever the execution order, agree. -/
theorem claim4_theorem (s₁ s₂ : Sched) (hv₁ : s₁.Valid) (hv₂ : s₂.Valid)
    (ht : HType) (inp : HInput) (h1 : 1 ≤ inp.iterations) :
    obsOf (computeHSched s₁ ht inp) = obsOf (computeHSched s₂ ht inp) := by
  rcases ht
  · unfold obsOf
    rw [ransac_bestH s₁ hv₁ inp h1, ransac_bestH s₂ hv₂ inp h1,
      ransac_inliersH s₁ hv₁ inp h1, ransac_inliersH s₂ hv₂ inp h1,
      ransac_err s₁ inp, ransac_err s₂ inp, ransac_H_buf s₁ inp, ransac_H_buf s₂ inp,
      ransac_writes s₁ inp, ransac_writes s₂ inp,
      ransac_launches s₁ inp, ransac_launches s₂ inp]
  · unfold obsOf
    rw [lmeds_bestH s₁ hv₁ inp h1, lmeds_bestH s₂ hv₂ inp h1,
      lmeds_inliersH s₁ hv₁ inp h1, lmeds_inliersH s₂ hv₂ inp h1,
      lmeds_err s₁ hv₁ inp, lmeds_err s₂ hv₂ inp,
      lmeds_H_buf s₁ inp, lmeds_H_buf s₂ inp,
      lmeds_writes s₁ inp, lmeds_writes s₂ inp,
      lmeds_launches s₁ inp, lmeds_launches s₂ inp]

/-- C4 witness: the canonical and a maximally reordering schedule
agree on a concrete input. -/
theorem claim4_witness :
    obsOf (computeHSched canonSched HType.lmeds winp)
      = obsOf (computeHSched revSched HType.lmeds winp) :=
  claim4_theorem canonSched revSched canonSched_valid revSched_valid HType.lmeds winp
    (by decide)

/-- C5 counterexample: the claim as stated says every failing run
leaves BestHomography unwritten.  On a concrete LMedS input, a run
failing in phase 7 (the classify kernel; 6 of 8 phases completed) has
already executed the bestH copy: the copy launch is in the log and the
write counter is 1. -/
theorem claim5_counterexample :
    6 < numSteps HType.lmeds
    ∧ Launch.copy ∈ (runUpTo HType.lmeds cexInp5 6).launches
    ∧ (runUpTo HType.lmeds cexInp5 6).bestHWrites = 1 := by
  refine ⟨by decide, by decide, by decide⟩

/-- C5 (amended): BestHomography is untouched by any run prefix that
stops at or before the copy phase; in RANSAC the copy is the final
phase, so every failing RANSAC run leaves bestH unmodified, but in
LMedS a failure in the classify or sum phase happens after the copy
(see the counterexample). -/
theorem claim5_theorem (ht : HType) (inp : HInput) (n : ℕ) :
    (n ≤ copyPos ht →
      (runUpTo ht inp n).bestH = inp.bestH0 ∧ (runUpTo ht inp n).bestHWrites = 0)
    ∧ (ht = HType.ransac → n < numSteps ht →
      (runUpTo ht inp n).bestH = inp.bestH0) := by
  constructor
  · intro hn
    exact runUpTo_bestH_early ht inp n hn
  · intro hht hn
    subst hht
    have hn3 : n ≤ copyPos HType.ransac := by
      show n ≤ 3
      have : n < 4 := hn
      omega
    exact (runUpTo_bestH_early HType.ransac inp n hn3).1

/-- C5 witness at concrete failing prefixes of both modes. -/
theorem claim5_witness :
    ((runUpTo HType.lmeds winp 5).bestH = winp.bestH0
      ∧ (runUpTo HType.lmeds winp 5).bestHWrites = 0)
    ∧ (runUpTo HType.ransac winp 2).bestH = winp.bestH0 :=
  ⟨(claim5_theorem HType.lmeds winp 5).1 (by decide),
   (claim5_theorem HType.ransac winp 2).2 rfl (by decide)⟩

/-- C6 counterexample: the claim as stated says computeH fails fast on
a configuration error with no kernel launch.  On a concrete input with
only three correspondences (nsamples < 4) the RANSAC pipeline launches
its full kernel sequence and completes. -/
theorem claim6_counterexample :
    badInp.cs.length < 4
    ∧ (computeH HType.ransac badInp).launches ≠ []
    ∧ (computeH HType.ransac badInp).launches
        = [Launch.ch, Launch.eh, Launch.ired, Launch.copy] := by
  refine ⟨by decide, by decide, by decide⟩

/-- C6 (amended): computeH performs no configuration validation: on
every input, valid or not, it unconditionally launches the full kernel
sequence of its mode; rejecting invalid configurations is the
responsibility of the API layer above this kernel-level entry
point. -/
theorem claim6_theorem (ht : HType) (inp : HInput) :
    (computeH ht inp).launches = expectedLaunches ht inp
    ∧ (computeH ht inp).launches ≠ [] := by
  unfold computeH
  rcases ht
  · refine ⟨ransac_launches canonSched inp, ?_⟩
    rw [ransac_launches canonSched inp]
    simp [expectedLaunches]
  · refine ⟨lmeds_launches canonSched inp, ?_⟩
    rw [lmeds_launches canonSched inp]
    unfold expectedLaunches
    simp

/-- C7 (confirmed): on a successful run in either mode, if the raw
solved coefficients of the winning candidate have a nonzero 9th entry
(the claim excepts only a singular winning candidate) then the
homography written to bestH has 9th coefficient exactly 1. -/
theorem claim7_theorem (ht : HType) (inp : HInput) (h1 : 1 ≤ inp.iterations)
    (h2 : (inp.rawH.getD (computeH ht inp).winIdx []).getD 8 0 ≠ 0) :
    (computeH ht inp).bestH.getD 8 0 = 1 := by
  rcases ht
  · unfold computeH at h2 ⊢
    rw [ransac_winIdx canonSched canonSched_valid inp h1] at h2
    rw [ransac_bestH canonSched canonSched_valid inp h1]
    exact normalize9_getD8 _ h2
  · unfold computeH at h2 ⊢
    rw [lmeds_winIdx canonSched canonSched_valid inp h1] at h2
    rw [lmeds_bestH canonSched canonSched_valid inp h1]
    exact normalize9_getD8 _ h2

/-- C7 witness at a concrete input: the winning candidate's raw 9th
coefficient is nonzero there, discharged through the winner's index
bound. -/
theorem claim7_witness :
    (computeH HType.ransac winp).bestH.getD 8 0 = 1 :=
  claim7_theorem HType.ransac winp (by decide)
    (by
      have hlt : (computeH HType.ransac winp).winIdx < winp.iterations := by
        unfold computeH
        rw [ransac_winIdx canonSched canonSched_valid winp (by decide)]
        exact ransacSel_lt winp (by decide)
      have hall : ∀ i, i < winp.iterations → (winp.rawH.getD i []).getD 8 0 ≠ 0 := by
        decide
      exact hall _ hlt)

/-- C8 (confirmed): on every successful run bestH is written exactly
once, and its contents are verbatim the 9 scalars of the H buffer
starting at flat offset winIdx * 9, which are the winning iteration's
candidate row. -/
theorem claim8_theorem (ht : HType) (inp : HInput) (h1 : 1 ≤ inp.iterations) :
    (computeH ht inp).bestHWrites = 1
    ∧ (computeH ht inp).bestH
        = ((computeH ht inp).H.drop ((computeH ht inp).winIdx * 9)).take 9
    ∧ (computeH ht inp).bestH = candRow inp (computeH ht inp).winIdx
    ∧ (computeH ht inp).winIdx < inp.iterations := by
  unfold computeH
  rcases ht
  · refine ⟨rfl, rfl, ?_, ?_⟩
    · rw [ransac_bestH canonSched canonSched_valid inp h1,
        ransac_winIdx canonSched canonSched_valid inp h1]
    · rw [ransac_winIdx canonSched canonSched_valid inp h1]
      exact ransacSel_lt inp h1
  · refine ⟨rfl, rfl, ?_, ?_⟩
    · rw [lmeds_bestH canonSched canonSched_valid inp h1,
        lmeds_winIdx canonSched canonSched_valid inp h1]
    · rw [lmeds_winIdx canonSched canonSched_valid inp h1]
      exact lmedsSel_lt inp h1

/-- C8 witness at a concrete input. -/
theorem claim8_witness :
    (computeH HType.lmeds winp).bestHWrites = 1
    ∧ (computeH HType.lmeds winp).bestH
        = ((computeH HType.lmeds winp).H.drop
            ((computeH HType.lmeds winp).winIdx * 9)).take 9
    ∧ (computeH HType.lmeds winp).bestH = candRow winp (computeH HType.lmeds winp).winIdx
    ∧ (computeH HType.lmeds winp).winIdx < winp.iterations :=
  claim8_theorem HType.lmeds winp (by decide)

/-- C9 counterexample: the claim as stated says the EPS used for
degenerate-system detection equals the machine epsilon of the working
precision.  The source streams DBL_EPSILON/FLT_EPSILON through a
default-precision (6 significant digits) ostringstream, so the option
actually passed to the kernel build is the truncated decimal
2.22045e-16 (resp. 1.19209e-07): the machine-epsilon option is not in
the built option list, and the streamed values differ from the machine
epsilons. -/
theorem claim9_counterexample :
    COpt.epsDef (machineEps CType.f64) ∉ compileOptions CType.f64 HType.ransac
    ∧ COpt.epsDef (machineEps CType.f32) ∉ compileOptions CType.f32 HType.ransac
    ∧ dblEpsStreamed ≠ machineEps CType.f64
    ∧ fltEpsStreamed ≠ machineEps CType.f32 := by
  have hd : dblEpsStreamed ≠ machineEps CType.f64 := by
    unfold dblEpsStreamed machineEps
    norm_num
  have hf : fltEpsStreamed ≠ machineEps CType.f32 := by
    unfold fltEpsStreamed machineEps
    norm_num
  refine ⟨?_, ?_, hd, hf⟩
  · intro hmem
    rw [show compileOptions CType.f64 HType.ransac
        = [COpt.defT CType.f64, COpt.useDouble, COpt.epsDef dblEpsStreamed,
           COpt.ransacDef] from rfl] at hmem
    simp only [List.mem_cons, List.not_mem_nil, or_false] at hmem
    rcases hmem with h | h | h | h
    · exact COpt.noConfusion h
    · exact COpt.noConfusion h
    · injection h with h
      exact hd h.symm
    · exact COpt.noConfusion h
  · intro hmem
    rw [show compileOptions CType.f32 HType.ransac
        = [COpt.defT CType.f32, COpt.epsDef fltEpsStreamed, COpt.ransacDef]
        from rfl] at hmem
    simp only [List.mem_cons, List.not_mem_nil, or_false] at hmem
    rcases hmem with h | h | h
    · exact COpt.noConfusion h
    · injection h with h
      exact hf h.symm
    · exact COpt.noConfusion h

/-- C9 (amended): the EPS build option is the 6-significant-digit
decimal the default-precision ostringstream makes of the machine
epsilon of the working precision (2.22045e-16 for double,
1.19209e-07 for float): an approximation of that machine epsilon
within a relative error of 10^-4, but not exactly it; USE_DOUBLE is
defined exactly when T is double, and -D T fixes the scalar type all
kernel arithmetic uses. -/
theorem claim9_theorem :
    ∀ (t : CType) (ht : HType),
      COpt.epsDef (if t = CType.f64 then dblEpsStreamed else fltEpsStreamed)
          ∈ compileOptions t ht
      ∧ (COpt.useDouble ∈ compileOptions t ht ↔ t = CType.f64)
      ∧ COpt.defT t ∈ compileOptions t ht
      ∧ |(if t = CType.f64 then dblEpsStreamed else fltEpsStreamed) - machineEps t|
          ≤ machineEps t / 10 ^ 4 := by
  intro t ht
  refine ⟨?_, ?_, ?_, ?_⟩
  · rcases t <;> rcases ht <;> simp [compileOptions]
  · rcases t <;> rcases ht <;> simp [compileOptions]
  · rcases t <;> rcases ht <;> simp [compileOptions]
  · rcases t
    · rw [if_neg (by decide), abs_le]
      constructor
      · unfold fltEpsStreamed machineEps
        norm_num
      · unfold fltEpsStreamed machineEps
        norm_num
    · rw [if_pos rfl, abs_le]
      constructor
      · unfold dblEpsStreamed machineEps
        norm_num
      · unfold dblEpsStreamed machineEps
        norm_num

/-- C10 (confirmed): in LMedS mode the caller's err scratch buffer
ends up holding, for every iteration, the ascending in-place sort of
that iteration's residual row (a permutation of the residuals, no
longer in correspondence order in general), while in RANSAC mode the
err buffer is left untouched. -/
theorem claim10_theorem (inp : HInput) (i : ℕ) :
    (computeH HType.lmeds inp).err
        = (resMatrix inp).map (fun r => List.insertionSort (fun a b => a ≤ b) r)
    ∧ List.Sorted (fun a b => a ≤ b) ((computeH HType.lmeds inp).err.getD i [])
    ∧ ((computeH HType.lmeds inp).err.getD i []).Perm ((resMatrix inp).getD i [])
    ∧ (computeH HType.ransac inp).err = inp.errInit := by
  unfold computeH
  refine ⟨lmeds_err canonSched canonSched_valid inp, ?_, ?_, rfl⟩
  · rw [lmeds_err canonSched canonSched_valid inp]
    by_cases hi : i < (resMatrix inp).length
    · rw [getD_map _ _ i [] [] hi]
      exact List.sorted_insertionSort _ _
    · rw [List.getD_eq_default _ _ (by simpa using not_lt.mp hi)]
      exact List.sorted_nil
  · rw [lmeds_err canonSched canonSched_valid inp]
    by_cases hi : i < (resMatrix inp).length
    · rw [getD_map _ _ i [] [] hi]
      exact List.perm_insertionSort _ _
    · rw [List.getD_eq_default _ _ (by simpa using not_lt.mp hi),
        List.getD_eq_default _ _ (not_lt.mp hi)]

end Homography

